import Mathlib

/-!
Shallow embedding of `src/termion.rs` from the `text-style` crate: the
conversion of styled strings to termion ANSI escape sequences, together
with the `render` and `render_iter` stream writers.

The formatter (`fmt::Formatter`) is modelled as the list of strings passed
to its successive `write_str` calls; a byte sink (`io::Write`) is modelled
as a `Sink` holding the bytes written so far plus an optional budget of
remaining successful writes (so that write failures can be injected).
-/

namespace TextStyle

/-- The eight named ANSI hues (`AnsiColor` in the crate root). -/
inductive AnsiColor
| black
| red
| green
| yellow
| blue
| magenta
| cyan
| white
deriving DecidableEq, Fintype

/-- The dark/light intensity mode (`AnsiMode` in the crate root). -/
inductive AnsiMode
| dark
| light
deriving DecidableEq, Fintype

/-- A color: a named ANSI hue with a mode, or a 24-bit RGB triple
(`Color` in the crate root; the `u8` components are modelled as
`Fin 256`). -/
inductive Color
| ansi (color : AnsiColor) (mode : AnsiMode)
| rgb (r g b : Fin 256)
deriving DecidableEq

/-- A text effect (`Effect` in the crate root). -/
inductive Effect
| bold
| italic
| underline
deriving DecidableEq, Fintype

/-- Modelled from the spec: the crate root (not under `src/`) stores the
effects of a `Style` as an `EnumSet<Effect>`; the spec fixes its iteration
order as the declaration order bold, italic, underline. One membership
flag per effect. -/
structure EffectSet where
  bold : Bool
  italic : Bool
  underline : Bool
deriving DecidableEq

/-- Modelled from the spec: iterating the effect set yields the member
effects in declaration order bold, italic, underline. -/
def EffectSet.toList (e : EffectSet) : List Effect :=
  (if e.bold then [Effect.bold] else []) ++
    (if e.italic then [Effect.italic] else []) ++
    (if e.underline then [Effect.underline] else [])

/-- Modelled from the spec: the effect set is empty when no effect is a
member. -/
def EffectSet.isEmpty (e : EffectSet) : Bool :=
  !e.bold && !e.italic && !e.underline

/-- Modelled from the spec: a `Style` (crate root, not under `src/`)
bundles an optional foreground color, an optional background color and a
set of effects. -/
structure Style where
  fg : Option Color
  bg : Option Color
  effects : EffectSet
deriving DecidableEq

/-- A styled string: the unit rendered (`StyledStr`/`TermionStr`). -/
structure TermionStr where
  s : String
  style : Option Style
deriving DecidableEq

/-- Termion `style::Reset`: the single universal reset sequence. -/
def resetSeq : String := "\x1b[m"

/-- Termion `style::NoBold`: the per-effect off sequence the renderer
deliberately never uses. -/
def noBoldSeq : String := "\x1b[21m"

/-- Termion `style::NoItalic`. -/
def noItalicSeq : String := "\x1b[23m"

/-- Termion `style::NoUnderline`. -/
def noUnderlineSeq : String := "\x1b[24m"

/-- The function `get_ansi_fg` in `termion.rs`: the 16 foreground literals produced by
the `fg_str` method of termion for the named colors. -/
def get_ansi_fg (color : AnsiColor) (mode : AnsiMode) : String :=
  match mode, color with
  | .dark, .black => "\x1b[38;5;0m"
  | .dark, .red => "\x1b[38;5;1m"
  | .dark, .green => "\x1b[38;5;2m"
  | .dark, .yellow => "\x1b[38;5;3m"
  | .dark, .blue => "\x1b[38;5;4m"
  | .dark, .magenta => "\x1b[38;5;5m"
  | .dark, .cyan => "\x1b[38;5;6m"
  | .dark, .white => "\x1b[38;5;7m"
  | .light, .black => "\x1b[38;5;8m"
  | .light, .red => "\x1b[38;5;9m"
  | .light, .green => "\x1b[38;5;10m"
  | .light, .yellow => "\x1b[38;5;11m"
  | .light, .blue => "\x1b[38;5;12m"
  | .light, .magenta => "\x1b[38;5;13m"
  | .light, .cyan => "\x1b[38;5;14m"
  | .light, .white => "\x1b[38;5;15m"

/-- The function `get_ansi_bg` in `termion.rs`: the 16 background literals produced by
the `bg_str` method of termion for the named colors. -/
def get_ansi_bg (color : AnsiColor) (mode : AnsiMode) : String :=
  match mode, color with
  | .dark, .black => "\x1b[48;5;0m"
  | .dark, .red => "\x1b[48;5;1m"
  | .dark, .green => "\x1b[48;5;2m"
  | .dark, .yellow => "\x1b[48;5;3m"
  | .dark, .blue => "\x1b[48;5;4m"
  | .dark, .magenta => "\x1b[48;5;5m"
  | .dark, .cyan => "\x1b[48;5;6m"
  | .dark, .white => "\x1b[48;5;7m"
  | .light, .black => "\x1b[48;5;8m"
  | .light, .red => "\x1b[48;5;9m"
  | .light, .green => "\x1b[48;5;10m"
  | .light, .yellow => "\x1b[48;5;11m"
  | .light, .blue => "\x1b[48;5;12m"
  | .light, .magenta => "\x1b[48;5;13m"
  | .light, .cyan => "\x1b[48;5;14m"
  | .light, .white => "\x1b[48;5;15m"

/-- The `color::Rgb(r, g, b).fg_string()` method of termion: the truecolor foreground
sequence, the three `u8` components encoded decimally. -/
def rgbFg (r g b : Fin 256) : String :=
  "\x1b[38;2;" ++ Nat.repr r.val ++ ";" ++ Nat.repr g.val ++ ";" ++
    Nat.repr b.val ++ "m"

/-- The `color::Rgb(r, g, b).bg_string()` method of termion: the truecolor background
sequence. -/
def rgbBg (r g b : Fin 256) : String :=
  "\x1b[48;2;" ++ Nat.repr r.val ++ ";" ++ Nat.repr g.val ++ ";" ++
    Nat.repr b.val ++ "m"

/-- The function `get_fg` in `termion.rs`. -/
def get_fg : Color → String
  | .ansi color mode => get_ansi_fg color mode
  | .rgb r g b => rgbFg r g b

/-- The function `get_bg` in `termion.rs`. -/
def get_bg : Color → String
  | .ansi color mode => get_ansi_bg color mode
  | .rgb r g b => rgbBg r g b

/-- The function `get_effect` in `termion.rs`: the termion activation literal of each
effect. -/
def get_effect : Effect → String
  | .bold => "\x1b[1m"
  | .italic => "\x1b[3m"
  | .underline => "\x1b[4m"

/-- The `Display` impl of `TermionStr` (`fmt`, lines 91-112): the list of
strings passed to the successive `write_str` calls of the formatter, in order:
the foreground sequence if `fg` is set, the background sequence if `bg`
is set, the activation sequence of each effect in iteration order, the raw
string, then the reset sequence when the style has any attribute. -/
def TermionStr.fmt (t : TermionStr) : List String :=
  (match t.style with
    | some style =>
      (match style.fg with
        | some fg => [get_fg fg]
        | none => []) ++
        (match style.bg with
          | some bg => [get_bg bg]
          | none => []) ++
        style.effects.toList.map get_effect
    | none => []) ++
    [t.s] ++
    (match t.style with
      | some style =>
        if style.fg.isSome || style.bg.isSome || !style.effects.isEmpty then
          [resetSeq]
        else []
      | none => [])

/-- Concatenation of a list of strings (the bytes a sequence of
`write_str` calls leaves in an in-memory formatter). -/
def concatList : List String → String
  | [] => ""
  | s :: l => s ++ concatList l

/-- The full rendered output of one styled string: what `format!` /
`to_string` on the `Display` impl produces. -/
def TermionStr.render (t : TermionStr) : String :=
  concatList t.fmt

/-- A byte sink (`io::Write`): the bytes written so far and an optional
budget of remaining successful writes (`none` = the sink never fails).
Models fault injection for write errors. -/
structure Sink where
  written : String
  budget : Option Nat
deriving DecidableEq

/-- One `write_str`/`write_all` call on the sink: appends on success,
consumes one unit of budget; fails (leaving the sink unchanged) when the
budget is exhausted. The boolean is `true` on success. -/
def Sink.write (w : Sink) (s : String) : Sink × Bool :=
  match w.budget with
  | none => ({ written := w.written ++ s, budget := none }, true)
  | some 0 => (w, false)
  | some (n + 1) => ({ written := w.written ++ s, budget := some n }, true)

/-- Writing a list of chunks in order, stopping at the first failure
(the `?` operator on each `write_str`). -/
def writeAll (w : Sink) : List String → Sink × Bool
  | [] => (w, true)
  | s :: l =>
    match w.write s with
    | (w2, true) => writeAll w2 l
    | (w2, false) => (w2, false)

/-- The function `render` in `termion.rs` (lines 235-237): renders one styled string
to the sink via its `Display` impl. -/
def render (w : Sink) (t : TermionStr) : Sink × Bool :=
  writeAll w t.fmt

/-- The function `render_iter` in `termion.rs` (lines 252-263): renders each item in
order, stopping at the first write error (`?`) and surfacing it. -/
def render_iter (w : Sink) : List TermionStr → Sink × Bool
  | [] => (w, true)
  | t :: ts =>
    match render w t with
    | (w2, true) => render_iter w2 ts
    | (w2, false) => (w2, false)

/-- The role a color plays: foreground (text) or background. -/
inductive Role
| fg
| bg
deriving DecidableEq, Fintype

/-- The ANSI named-color mapper seen as one function over
mode × hue × role (the 32 cases of `get_ansi_fg` and `get_ansi_bg`). -/
def ansiSeq : AnsiMode × AnsiColor × Role → String
  | (m, c, .fg) => get_ansi_fg c m
  | (m, c, .bg) => get_ansi_bg c m

/-- The foreground segment of the rendered output: the foreground
sequence when `fg` is set, nothing otherwise. -/
def fgPart : Option Style → String
  | none => ""
  | some style =>
    match style.fg with
    | some c => get_fg c
    | none => ""

/-- The background segment of the rendered output. -/
def bgPart : Option Style → String
  | none => ""
  | some style =>
    match style.bg with
    | some c => get_bg c
    | none => ""

/-- The effect-activation segment of the rendered output: the activation
sequences of the member effects, in iteration order. -/
def effectsPart : Option Style → String
  | none => ""
  | some style => concatList (style.effects.toList.map get_effect)

/-- Whether any formatting was applied (the condition of line 106). -/
def needsReset : Option Style → Bool
  | none => false
  | some style => style.fg.isSome || style.bg.isSome || !style.effects.isEmpty

/-- The trailing reset segment of the rendered output. -/
def resetPart (st : Option Style) : String :=
  if needsReset st then resetSeq else ""

/-- The formatting chunks emitted before the raw text: foreground,
background, then effect activations. -/
def activationChunks : Option Style → List String
  | none => []
  | some style =>
    (match style.fg with
      | some c => [get_fg c]
      | none => []) ++
      (match style.bg with
        | some c => [get_bg c]
        | none => []) ++
      style.effects.toList.map get_effect

/-- Total number of `write_str` calls a list of items performs. -/
def chunkCount (ts : List TermionStr) : Nat :=
  (ts.map fun t => t.fmt.length).sum

/-- Drops an expected literal head from a char list, failing on any
mismatch. -/
def dropHead : List Char → List Char → Option (List Char)
  | [], cs => some cs
  | _ :: _, [] => none
  | p :: ps, c :: cs => if c = p then dropHead ps cs else none

/-- Splits a char list at the first occurrence of `sep`. -/
def splitSep (sep : Char) : List Char → Option (List Char × List Char)
  | [] => none
  | c :: cs =>
    if c = sep then some ([], cs)
    else (splitSep sep cs).map fun p => (c :: p.1, p.2)

/-- The value of a decimal digit character. -/
def digitVal (c : Char) : Option Nat :=
  if c.isDigit then some (c.toNat - 48) else none

/-- Accumulating decimal parser over a run of digit characters. -/
def parseDecAux : Nat → List Char → Option Nat
  | acc, [] => some acc
  | acc, c :: cs =>
    match digitVal c with
    | some d => parseDecAux (10 * acc + d) cs
    | none => none

/-- Parses a nonempty run of decimal digits. -/
def parseDec : List Char → Option Nat
  | [] => none
  | c :: cs => parseDecAux 0 (c :: cs)

/-- The head of a truecolor foreground sequence. -/
def fgHead : List Char := "\x1b[38;2;".data

/-- The head of a truecolor background sequence. -/
def bgHead : List Char := "\x1b[48;2;".data

/-- Decodes a truecolor sequence with the given role head back to its
(r, g, b) triple: the head, three decimal components separated by
semicolons, then a final letter m. -/
def decodeRgb (head : List Char) (s : String) : Option (Nat × Nat × Nat) :=
  (dropHead head s.data).bind fun r1 =>
    (splitSep ';' r1).bind fun p1 =>
      (splitSep ';' p1.2).bind fun p2 =>
        (splitSep 'm' p2.2).bind fun p3 =>
          if p3.2 = [] then
            (parseDec p1.1).bind fun r =>
              (parseDec p2.1).bind fun g =>
                (parseDec p3.1).map fun b => (r, g, b)
          else none

theorem concatList_append (l1 l2 : List String) :
    concatList (l1 ++ l2) = concatList l1 ++ concatList l2 := by
  induction l1 with
  | nil => simp [concatList]
  | cons s l ih => simp [concatList, ih, String.append_assoc]

theorem rgbFg_data (r g b : Fin 256) :
    (rgbFg r g b).data =
      '\x1b' :: '[' :: '3' :: '8' :: ';' :: '2' :: ';' ::
        ((Nat.repr r.val).data ++ ';' ::
          ((Nat.repr g.val).data ++ ';' ::
            ((Nat.repr b.val).data ++ ['m']))) := by
  have e1 : "\x1b[38;2;".data = ['\x1b', '[', '3', '8', ';', '2', ';'] := rfl
  have e2 : ";".data = [';'] := rfl
  have e3 : "m".data = ['m'] := rfl
  simp [rgbFg, String.data_append, e1, e2, e3]

theorem rgbBg_data (r g b : Fin 256) :
    (rgbBg r g b).data =
      '\x1b' :: '[' :: '4' :: '8' :: ';' :: '2' :: ';' ::
        ((Nat.repr r.val).data ++ ';' ::
          ((Nat.repr g.val).data ++ ';' ::
            ((Nat.repr b.val).data ++ ['m']))) := by
  have e1 : "\x1b[48;2;".data = ['\x1b', '[', '4', '8', ';', '2', ';'] := rfl
  have e2 : ";".data = [';'] := rfl
  have e3 : "m".data = ['m'] := rfl
  simp [rgbBg, String.data_append, e1, e2, e3]

theorem rgbFg_ne_cons (r g b : Fin 256) (c : Char) (rest : List Char)
    (hc : c ≠ '3') :
    (rgbFg r g b).data ≠ '\x1b' :: '[' :: c :: rest := by
  intro h
  rw [rgbFg_data] at h
  simp only [List.cons.injEq] at h
  exact hc h.2.2.1.symm

theorem rgbBg_ne_cons (r g b : Fin 256) (c : Char) (rest : List Char)
    (hc : c ≠ '4') :
    (rgbBg r g b).data ≠ '\x1b' :: '[' :: c :: rest := by
  intro h
  rw [rgbBg_data] at h
  simp only [List.cons.injEq] at h
  exact hc h.2.2.1.symm

theorem get_fg_ne_reset (c : Color) : get_fg c ≠ resetSeq := by
  cases c with
  | ansi a m =>
    revert a m
    decide
  | rgb r g b =>
    intro h
    exact rgbFg_ne_cons r g b 'm' [] (by decide) (congrArg String.data h)

theorem get_bg_ne_reset (c : Color) : get_bg c ≠ resetSeq := by
  cases c with
  | ansi a m =>
    revert a m
    decide
  | rgb r g b =>
    intro h
    exact rgbBg_ne_cons r g b 'm' [] (by decide) (congrArg String.data h)

theorem get_effect_ne_reset (e : Effect) : get_effect e ≠ resetSeq := by
  revert e
  decide

theorem get_fg_ne_off (c : Color) :
    get_fg c ≠ noBoldSeq ∧ get_fg c ≠ noItalicSeq ∧
      get_fg c ≠ noUnderlineSeq := by
  cases c with
  | ansi a m =>
    revert a m
    decide
  | rgb r g b =>
    refine ⟨fun h => ?_, fun h => ?_, fun h => ?_⟩
    · exact rgbFg_ne_cons r g b '2' ['1', 'm'] (by decide) (congrArg String.data h)
    · exact rgbFg_ne_cons r g b '2' ['3', 'm'] (by decide) (congrArg String.data h)
    · exact rgbFg_ne_cons r g b '2' ['4', 'm'] (by decide) (congrArg String.data h)

theorem get_bg_ne_off (c : Color) :
    get_bg c ≠ noBoldSeq ∧ get_bg c ≠ noItalicSeq ∧
      get_bg c ≠ noUnderlineSeq := by
  cases c with
  | ansi a m =>
    revert a m
    decide
  | rgb r g b =>
    refine ⟨fun h => ?_, fun h => ?_, fun h => ?_⟩
    · exact rgbBg_ne_cons r g b '2' ['1', 'm'] (by decide) (congrArg String.data h)
    · exact rgbBg_ne_cons r g b '2' ['3', 'm'] (by decide) (congrArg String.data h)
    · exact rgbBg_ne_cons r g b '2' ['4', 'm'] (by decide) (congrArg String.data h)

theorem get_effect_ne_off (e : Effect) :
    get_effect e ≠ noBoldSeq ∧ get_effect e ≠ noItalicSeq ∧
      get_effect e ≠ noUnderlineSeq := by
  revert e
  decide

theorem rgbFg_ne_rgbBg (r g b : Fin 256) : rgbFg r g b ≠ rgbBg r g b := by
  intro h
  exact rgbFg_ne_cons r g b '4'
    ('8' :: ';' :: '2' :: ';' ::
      ((Nat.repr r.val).data ++ ';' ::
        ((Nat.repr g.val).data ++ ';' ::
          ((Nat.repr b.val).data ++ ['m']))))
    (by decide) ((congrArg String.data h).trans (rgbBg_data r g b))

theorem dropHead_append (ps cs : List Char) : dropHead ps (ps ++ cs) = some cs := by
  induction ps with
  | nil => rfl
  | cons p ps ih => simp [dropHead, ih]

theorem splitSep_append (sep : Char) (xs rest : List Char) (h : sep ∉ xs) :
    splitSep sep (xs ++ sep :: rest) = some (xs, rest) := by
  induction xs with
  | nil => simp [splitSep]
  | cons c cs ih =>
    simp only [List.mem_cons, not_or] at h
    have hne : ¬c = sep := fun hc => h.1 (hc ▸ rfl)
    simp [splitSep, hne, ih h.2]

set_option maxRecDepth 4096 in
theorem repr_byte_facts :
    ∀ x : Fin 256,
      parseDec (Nat.repr x.val).data = some x.val ∧
        ';' ∉ (Nat.repr x.val).data ∧ 'm' ∉ (Nat.repr x.val).data := by
  decide

theorem decode_rgbFg (r g b : Fin 256) :
    decodeRgb fgHead (rgbFg r g b) = some (r.val, g.val, b.val) := by
  obtain ⟨pr, sr, _⟩ := repr_byte_facts r
  obtain ⟨pg, sg, _⟩ := repr_byte_facts g
  obtain ⟨pb, _, mb⟩ := repr_byte_facts b
  have hd : (rgbFg r g b).data =
      fgHead ++
        ((Nat.repr r.val).data ++ ';' ::
          ((Nat.repr g.val).data ++ ';' ::
            ((Nat.repr b.val).data ++ 'm' :: []))) := rgbFg_data r g b
  unfold decodeRgb
  rw [hd, dropHead_append, Option.some_bind, splitSep_append ';' _ _ sr,
    Option.some_bind, splitSep_append ';' _ _ sg, Option.some_bind,
    splitSep_append 'm' _ _ mb, Option.some_bind]
  simp [pr, pg, pb]

theorem decode_rgbBg (r g b : Fin 256) :
    decodeRgb bgHead (rgbBg r g b) = some (r.val, g.val, b.val) := by
  obtain ⟨pr, sr, _⟩ := repr_byte_facts r
  obtain ⟨pg, sg, _⟩ := repr_byte_facts g
  obtain ⟨pb, _, mb⟩ := repr_byte_facts b
  have hd : (rgbBg r g b).data =
      bgHead ++
        ((Nat.repr r.val).data ++ ';' ::
          ((Nat.repr g.val).data ++ ';' ::
            ((Nat.repr b.val).data ++ 'm' :: []))) := rgbBg_data r g b
  unfold decodeRgb
  rw [hd, dropHead_append, Option.some_bind, splitSep_append ';' _ _ sr,
    Option.some_bind, splitSep_append ';' _ _ sg, Option.some_bind,
    splitSep_append 'm' _ _ mb, Option.some_bind]
  simp [pr, pg, pb]

theorem write_success (w : Sink) (s : String) (h : (w.write s).2 = true) :
    (w.write s).1.written = w.written ++ s := by
  rcases w with ⟨x, b⟩
  cases b with
  | none => rfl
  | some n =>
    cases n with
    | zero => simp [Sink.write] at h
    | succ n => rfl

theorem writeAll_success (cs : List String) :
    ∀ w : Sink, (writeAll w cs).2 = true →
      (writeAll w cs).1.written = w.written ++ concatList cs := by
  induction cs with
  | nil =>
    intro w _
    simp [writeAll, concatList]
  | cons c cs ih =>
    intro w h
    rcases hw : w.write c with ⟨w2, ok⟩
    cases ok with
    | false =>
      simp only [writeAll, hw] at h
      exact absurd h (by decide)
    | true =>
      simp only [writeAll, hw] at h ⊢
      have hc : w2.written = w.written ++ c := by
        have := write_success w c (by rw [hw])
        rw [hw] at this
        exact this
      rw [ih w2 h, hc, concatList, String.append_assoc]

theorem render_success (w : Sink) (t : TermionStr) (h : (render w t).2 = true) :
    (render w t).1.written = w.written ++ t.render :=
  writeAll_success t.fmt w h

theorem render_iter_success (ts : List TermionStr) :
    ∀ w : Sink, (render_iter w ts).2 = true →
      (render_iter w ts).1.written =
        w.written ++ concatList (ts.map TermionStr.render) := by
  induction ts with
  | nil =>
    intro w _
    simp [render_iter, concatList]
  | cons t ts ih =>
    intro w h
    rcases hr : render w t with ⟨w2, ok⟩
    cases ok with
    | false =>
      simp only [render_iter, hr] at h
      exact absurd h (by decide)
    | true =>
      simp only [render_iter, hr] at h ⊢
      have hc : w2.written = w.written ++ t.render := by
        have := render_success w t (by rw [hr])
        rw [hr] at this
        exact this
      rw [ih w2 h, hc, List.map_cons, concatList, String.append_assoc]

theorem writeAll_enough (cs : List String) :
    ∀ (x : String) (k : Nat), cs.length ≤ k →
      writeAll ⟨x, some k⟩ cs =
        (⟨x ++ concatList cs, some (k - cs.length)⟩, true) := by
  induction cs with
  | nil =>
    intro x k _
    simp [writeAll, concatList]
  | cons c cs ih =>
    intro x k h
    match k with
    | k + 1 =>
      have h2 : cs.length ≤ k := Nat.lt_succ_iff.mp (Nat.lt_of_lt_of_le
        (Nat.lt_succ_of_le le_rfl) (by simpa [List.length_cons] using h))
      simp only [writeAll, Sink.write]
      rw [ih (x ++ c) k h2]
      simp [concatList, String.append_assoc, Nat.succ_sub_succ]

theorem writeAll_fail (cs : List String) :
    ∀ (x : String) (j : Nat), j < cs.length →
      writeAll ⟨x, some j⟩ cs =
        (⟨x ++ concatList (cs.take j), some 0⟩, false) := by
  induction cs with
  | nil =>
    intro x j h
    exact absurd h (by simp)
  | cons c cs ih =>
    intro x j h
    match j with
    | 0 => simp [writeAll, Sink.write, concatList]
    | j + 1 =>
      have h2 : j < cs.length := by simpa [List.length_cons] using h
      simp only [writeAll, Sink.write]
      rw [ih (x ++ c) j h2]
      simp [concatList, String.append_assoc]

theorem chunkCount_cons (t : TermionStr) (ts : List TermionStr) :
    chunkCount (t :: ts) = t.fmt.length + chunkCount ts := by
  simp [chunkCount]

theorem render_iter_fail (ts : List TermionStr) :
    ∀ (x : String) (n : Nat) (hn : n < ts.length) (j : Nat),
      j < (ts.get ⟨n, hn⟩).fmt.length →
      render_iter ⟨x, some (chunkCount (ts.take n) + j)⟩ ts =
        (⟨x ++ concatList ((ts.take n).map TermionStr.render) ++
            concatList ((ts.get ⟨n, hn⟩).fmt.take j), some 0⟩, false) := by
  induction ts with
  | nil =>
    intro x n hn
    exact absurd hn (by simp)
  | cons t ts ih =>
    intro x n hn j hj
    match n with
    | 0 =>
      have hj2 : j < t.fmt.length := hj
      have hf := writeAll_fail t.fmt x j hj2
      simp only [List.take_zero, List.map_nil]
      have hcc : chunkCount ([] : List TermionStr) = 0 := rfl
      rw [hcc, Nat.zero_add]
      simp only [render_iter, render]
      rw [hf]
      simp [concatList]
    | n + 1 =>
      have hn2 : n < ts.length := Nat.lt_of_succ_lt_succ (by simpa using hn)
      have hj2 : j < (ts.get ⟨n, hn2⟩).fmt.length := hj
      have hle : t.fmt.length ≤ t.fmt.length + (chunkCount (ts.take n) + j) :=
        Nat.le_add_right _ _
      have he := writeAll_enough t.fmt x _ hle
      have hb : chunkCount ((t :: ts).take (n + 1)) + j =
          t.fmt.length + (chunkCount (ts.take n) + j) := by
        simp [List.take_succ_cons, chunkCount_cons, Nat.add_assoc]
      rw [hb]
      simp only [render_iter, render]
      rw [he, Nat.add_sub_cancel_left]
      show render_iter
        ⟨x ++ concatList t.fmt, some (chunkCount (List.take n ts) + j)⟩ ts = _
      rw [ih (x ++ concatList t.fmt) n hn2 j hj2]
      simp [List.take_succ_cons, List.map_cons, concatList, TermionStr.render,
        String.append_assoc]

theorem fmt_eq (t : TermionStr) :
    t.fmt = activationChunks t.style ++ [t.s] ++
      (if needsReset t.style then [resetSeq] else []) := by
  rcases t with ⟨s, st⟩
  cases st <;> rfl

theorem concat_activation (st : Option Style) :
    concatList (activationChunks st) = fgPart st ++ bgPart st ++ effectsPart st := by
  cases st with
  | none => simp [activationChunks, fgPart, bgPart, effectsPart, concatList]
  | some style =>
    rcases style with ⟨fg, bg, eff⟩
    cases fg <;> cases bg <;>
      simp [activationChunks, fgPart, bgPart, effectsPart, concatList,
        concatList_append, String.append_assoc]

theorem concat_resetChunk (st : Option Style) :
    concatList (if needsReset st then [resetSeq] else []) = resetPart st := by
  cases h : needsReset st <;> simp [resetPart, h, concatList]

theorem mem_activation (st : Option Style) (c : String)
    (hc : c ∈ activationChunks st) :
    (∃ col, c = get_fg col) ∨ (∃ col, c = get_bg col) ∨ ∃ e, c = get_effect e := by
  cases st with
  | none => simp [activationChunks] at hc
  | some style =>
    rcases style with ⟨fg, bg, eff⟩
    simp only [activationChunks, List.mem_append] at hc
    rcases hc with (hc | hc) | hc
    · cases fg with
      | none => simp at hc
      | some col =>
        simp at hc
        exact Or.inl ⟨col, hc⟩
    · cases bg with
      | none => simp at hc
      | some col =>
        simp at hc
        exact Or.inr (Or.inl ⟨col, hc⟩)
    · rcases List.mem_map.mp hc with ⟨e, _, he⟩
      exact Or.inr (Or.inr ⟨e, he.symm⟩)

/-- Claim C1: for every string and every style, the rendered output is, in
this exact order, the foreground sequence if fg is set, then the background
sequence if bg is set, then the activation sequence of each effect in the
deterministic iteration order of the set, then the raw string bytes unchanged,
then the reset sequence when any formatting was applied. -/
theorem c1_render_order (t : TermionStr) :
    t.render =
      fgPart t.style ++ bgPart t.style ++ effectsPart t.style ++ t.s ++
        resetPart t.style := by
  rw [TermionStr.render, fmt_eq, concatList_append, concatList_append,
    concat_activation, concat_resetChunk, concatList, concatList]
  simp [String.append_assoc]

/-- Claim C2: rendering any string with a style whose fg and bg are unset
and whose effect set is empty yields exactly the raw string: the formatter
receives the single chunk [s], and the output is byte-identical to s. -/
theorem c2_empty_style_identity (s : String) :
    TermionStr.fmt ⟨s, some ⟨none, none, ⟨false, false, false⟩⟩⟩ = [s] ∧
      TermionStr.render ⟨s, some ⟨none, none, ⟨false, false, false⟩⟩⟩ = s := by
  constructor
  · rfl
  · simp [TermionStr.render, TermionStr.fmt, EffectSet.toList,
      EffectSet.isEmpty, concatList]

/-- Claim C3: the emitted chunks are the activation chunks, the raw string,
then exactly one reset chunk if and only if any attribute is set; the reset
sequence never occurs among the activation chunks, and no per-effect off
sequence (NoBold, NoItalic, NoUnderline) is ever emitted. -/
theorem c3_single_reset (t : TermionStr) :
    t.fmt = activationChunks t.style ++ [t.s] ++
        (if needsReset t.style then [resetSeq] else []) ∧
      resetSeq ∉ activationChunks t.style ∧
      ∀ c ∈ activationChunks t.style,
        c ≠ noBoldSeq ∧ c ≠ noItalicSeq ∧ c ≠ noUnderlineSeq := by
  refine ⟨fmt_eq t, ?_, ?_⟩
  · intro hc
    rcases mem_activation _ _ hc with ⟨col, h⟩ | ⟨col, h⟩ | ⟨e, h⟩
    · exact get_fg_ne_reset col h.symm
    · exact get_bg_ne_reset col h.symm
    · exact get_effect_ne_reset e h.symm
  · intro c hc
    rcases mem_activation _ _ hc with ⟨col, h⟩ | ⟨col, h⟩ | ⟨e, h⟩
    · exact h ▸ get_fg_ne_off col
    · exact h ▸ get_bg_ne_off col
    · exact h ▸ get_effect_ne_off e

theorem c3_single_reset_witness :
    "\x1b[38;5;0m" ≠ noBoldSeq ∧ "\x1b[38;5;0m" ≠ noItalicSeq ∧
      "\x1b[38;5;0m" ≠ noUnderlineSeq :=
  (c3_single_reset
      ⟨"x", some ⟨some (.ansi .black .dark), none, ⟨true, false, false⟩⟩⟩).2.2
    "\x1b[38;5;0m" (by decide)

/-- Claim C4: whenever no write error occurs, `render_iter` appends to the
sink exactly the concatenation, in order, of the single-item renders of the
elements; in particular the sequence "a" bold, " " plain, "b" italic yields
bold-on, a, reset, space, italic-on, b, reset. -/
theorem c4_render_iter_concat :
    (∀ (w : Sink) (ts : List TermionStr), (render_iter w ts).2 = true →
        (render_iter w ts).1.written =
          w.written ++ concatList (ts.map TermionStr.render)) ∧
      render_iter ⟨"", none⟩
          [⟨"a", some ⟨none, none, ⟨true, false, false⟩⟩⟩,
            ⟨" ", none⟩,
            ⟨"b", some ⟨none, none, ⟨false, true, false⟩⟩⟩] =
        (⟨"\x1b[1ma\x1b[m \x1b[3mb\x1b[m", none⟩, true) := by
  refine ⟨fun w ts h => render_iter_success ts w h, ?_⟩
  decide

theorem c4_render_iter_concat_witness :
    (render_iter ⟨"", some 9⟩
          [⟨"x", some ⟨none, none, ⟨true, false, false⟩⟩⟩]).1.written =
      "" ++ concatList
        ([⟨"x", some ⟨none, none, ⟨true, false, false⟩⟩⟩].map
          TermionStr.render) :=
  c4_render_iter_concat.1 ⟨"", some 9⟩
    [⟨"x", some ⟨none, none, ⟨true, false, false⟩⟩⟩] (by decide)

/-- Claim C5: the ANSI color mapper is total over the 8 hues × 2 modes ×
2 roles (a domain of exactly 32 cases) and no two distinct
(mode, hue, role) triples map to the same literal. -/
theorem c5_ansi_mapper_injective :
    Function.Injective ansiSeq ∧
      Fintype.card (AnsiMode × AnsiColor × Role) = 32 := by
  constructor
  · decide
  · decide

theorem c5_ansi_mapper_injective_witness :
    ((AnsiMode.dark, AnsiColor.red, Role.fg) : AnsiMode × AnsiColor × Role) =
      (AnsiMode.dark, AnsiColor.red, Role.fg) :=
  c5_ansi_mapper_injective.1 rfl

/-- Claim C6: the truecolor sequences encode the three components decimally
with no loss — the triple is recoverable by a decoder, hence the encoding is
injective in (r, g, b) — and the foreground sequence always differs from the
background sequence for the same triple. -/
theorem c6_rgb_roundtrip (r g b : Fin 256) :
    decodeRgb fgHead (get_fg (.rgb r g b)) = some (r.val, g.val, b.val) ∧
      decodeRgb bgHead (get_bg (.rgb r g b)) = some (r.val, g.val, b.val) ∧
      get_fg (.rgb r g b) ≠ get_bg (.rgb r g b) ∧
      ∀ r2 g2 b2 : Fin 256,
        get_fg (.rgb r g b) = get_fg (.rgb r2 g2 b2) →
          r = r2 ∧ g = g2 ∧ b = b2 := by
  refine ⟨decode_rgbFg r g b, decode_rgbBg r g b, rgbFg_ne_rgbBg r g b, ?_⟩
  intro r2 g2 b2 h
  have h1 : decodeRgb fgHead (get_fg (Color.rgb r g b)) =
      some (r.val, g.val, b.val) := decode_rgbFg r g b
  have h2 : decodeRgb fgHead (get_fg (Color.rgb r2 g2 b2)) =
      some (r2.val, g2.val, b2.val) := decode_rgbFg r2 g2 b2
  rw [h] at h1
  have h3 := h1.symm.trans h2
  simp only [Option.some.injEq, Prod.mk.injEq] at h3
  exact ⟨Fin.ext h3.1, Fin.ext h3.2.1, Fin.ext h3.2.2⟩

theorem c6_rgb_roundtrip_witness :
    (12 : Fin 256) = 12 ∧ (34 : Fin 256) = 34 ∧ (255 : Fin 256) = 255 :=
  (c6_rgb_roundtrip 12 34 255).2.2.2 12 34 255 rfl

/-- Claim C7: when the sink fails on a write belonging to the n-th item
(budget = chunks of the items before it plus j, with j inside the n-th
chunk list of that item), `render_iter` surfaces the failure, the items before n
are on the sink byte-for-byte as their individual renders, the n-th item
contributed only its first j chunks, and nothing was written for any later
item. -/
theorem c7_write_failure (x : String) (ts : List TermionStr) (n j : Nat)
    (hn : n < ts.length) (hj : j < (ts.get ⟨n, hn⟩).fmt.length) :
    render_iter ⟨x, some (chunkCount (ts.take n) + j)⟩ ts =
      (⟨x ++ concatList ((ts.take n).map TermionStr.render) ++
          concatList ((ts.get ⟨n, hn⟩).fmt.take j), some 0⟩, false) :=
  render_iter_fail ts x n hn j hj

theorem c7_write_failure_witness :
    render_iter ⟨"", some 1⟩ [⟨"a", none⟩, ⟨"b", none⟩] =
      (⟨"a", some 0⟩, false) := by
  have h := c7_write_failure "" [⟨"a", none⟩, ⟨"b", none⟩] 1 0 (by decide)
    (by decide)
  exact h.trans (by decide)

/-- Claim C8: the effect mapper is total over the three effects (a domain
of exactly 3 cases), each returning a fixed literal activation sequence,
and the three literals are pairwise distinct. -/
theorem c8_effect_mapper_injective :
    Function.Injective get_effect ∧ Fintype.card Effect = 3 := by
  constructor
  · decide
  · decide

theorem c8_effect_mapper_injective_witness : Effect.bold = Effect.bold :=
  c8_effect_mapper_injective.1 rfl

/-- Claim C9: a present-but-empty style renders exactly like an absent
style: the outputs are byte-identical. -/
theorem c9_empty_style_eq_none (s : String) :
    TermionStr.render ⟨s, some ⟨none, none, ⟨false, false, false⟩⟩⟩ =
      TermionStr.render ⟨s, none⟩ := rfl

/-- Claim C10: rendering the empty sequence of styled strings succeeds and
leaves any sink unchanged: no write is performed. -/
theorem c10_render_iter_nil (w : Sink) : render_iter w [] = (w, true) := rfl

end TextStyle
